import Mathlib

/-!
Verification of `scripts/update_contributions.py`.

The script fetches a user's merged pull requests from the GitHub search API,
groups them by category and repository, renders an HTML fragment, and splices
that fragment into `index.html` between two sentinel marker comments.

File contents are modelled as `List Char` (Python `str` is a sequence of
characters); dictionaries that preserve insertion order (Python `dict` /
`OrderedDict` / `defaultdict`) are modelled as association lists; `sys.exit(1)`
paths are modelled by explicit outcome constructors; network effects are
modelled by passing the response for each request explicitly.
-/

/-! ## Constants of the script -/

def START_MARKER : String := "<!-- BEGIN CONTRIBUTIONS -->"

def END_MARKER : String := "<!-- END CONTRIBUTIONS -->"

def EXCLUDED_REPOS : List String := ["dream11/odin", "dream11/homebrew-tools"]

def CHEVRON_SVG : String :=
  "<svg class=\"repo-chevron\" viewBox=\"0 0 24 24\" fill=\"none\" " ++
  "stroke=\"currentColor\" stroke-width=\"2\">" ++
  "<polyline points=\"9 18 15 12 9 6\"/></svg>"

/-! ## Generic string-search helpers (Python `str.find` / `str.rfind`) -/

/-- `pat` occurs in `l` at position `i` (Python `content[i:i+len(pat)] == pat`). -/
def matchAt (pat l : List Char) (i : Nat) : Prop := (l.drop i).take pat.length = pat

instance (pat l : List Char) (i : Nat) : Decidable (matchAt pat l i) := by
  unfold matchAt; infer_instance

/-- Python `l.find(pat)`: index of the first occurrence of `pat` in `l`
(`none` models the return value `-1`). -/
def findSub (pat : List Char) : List Char → Option Nat
  | [] => if pat = [] then some 0 else none
  | c :: rest =>
    if (c :: rest).take pat.length = pat then some 0
    else (findSub pat rest).map (· + 1)

/-- Python `l.rfind(c, 0, hi)`: the greatest index `< hi` holding `c`
(`none` models `-1`). -/
def rfindChar (c : Char) : List Char → Nat → Option Nat
  | [], _ => none
  | _ :: _, 0 => none
  | x :: xs, n + 1 =>
    match rfindChar c xs n with
    | some i => some (i + 1)
    | none => if x = c then some 0 else none

/-! ## File patcher (`update_index_html`) -/

/-- Outcome of `update_index_html`: either the new file content that is written
back, or a fatal `sys.exit` with its diagnostic message and exit code (on the
fatal path the file is never written). -/
inductive PatchOutcome where
  | written (newContent : List Char)
  | fatal (msg : String) (exitCode : Nat)
deriving DecidableEq

/-- `update_index_html(new_html)` from the script, with the file content passed
in and the written content returned instead of going through the filesystem. -/
def update_index_html (content new_html : List Char) : PatchOutcome :=
  match findSub START_MARKER.toList content, findSub END_MARKER.toList content with
  | some start0, some end0 =>
    -- Include leading whitespace on the marker line
    let start :=
      match rfindChar '\n' content start0 with
      | some lineStart => lineStart + 1
      | none => start0
    let endIdx := end0 + END_MARKER.toList.length
    .written (content.take start ++ new_html ++ content.drop endIdx)
  | _, _ => .fatal "Error: Could not find contribution markers in index.html" 1

example :
    update_index_html ("A\n  " ++ START_MARKER ++ "X" ++ END_MARKER ++ "\nB").toList "NEW".toList
      = .written ("A\nNEW\nB").toList := by decide

/-! ## Characterization of the search helpers -/

theorem matchAt_nil (pat : List Char) (j : Nat) : matchAt pat [] j ↔ pat = [] := by
  simp [matchAt, eq_comm]

theorem matchAt_cons_succ (pat : List Char) (c : Char) (rest : List Char) (j : Nat) :
    matchAt pat (c :: rest) (j + 1) ↔ matchAt pat rest j := by
  simp [matchAt]

theorem findSub_eq_some_iff (pat : List Char) : ∀ (l : List Char) (i : Nat),
    findSub pat l = some i ↔ matchAt pat l i ∧ ∀ j, j < i → ¬ matchAt pat l j := by
  intro l
  induction l with
  | nil =>
    intro i
    unfold findSub
    by_cases hp : pat = []
    · subst hp
      simp only [if_pos rfl, matchAt_nil]
      constructor
      · rintro ⟨rfl⟩
        exact ⟨trivial, fun j hj => absurd hj (Nat.not_lt_zero j)⟩
      · rintro ⟨-, h⟩
        rcases Nat.eq_zero_or_pos i with rfl | hi
        · rfl
        · exact absurd trivial (h 0 hi)
    · simp [if_neg hp, matchAt_nil, hp]
  | cons c rest ih =>
    intro i
    unfold findSub
    by_cases h0 : (c :: rest).take pat.length = pat
    · have hm0 : matchAt pat (c :: rest) 0 := by simpa [matchAt] using h0
      simp only [if_pos h0]
      constructor
      · rintro ⟨rfl⟩
        exact ⟨hm0, by omega⟩
      · rintro ⟨-, hmin⟩
        rcases Nat.eq_zero_or_pos i with rfl | hi
        · rfl
        · exact absurd hm0 (hmin 0 hi)
    · have hm0 : ¬ matchAt pat (c :: rest) 0 := by simpa [matchAt] using h0
      simp only [if_neg h0]
      constructor
      · intro h
        rcases Option.map_eq_some'.mp h with ⟨i', hi', rfl⟩
        rcases (ih i').mp hi' with ⟨hm, hmin⟩
        refine ⟨(matchAt_cons_succ ..).mpr hm, ?_⟩
        intro j hj
        cases j with
        | zero => exact hm0
        | succ j' =>
          rw [matchAt_cons_succ]
          exact hmin j' (by omega)
      · rintro ⟨hm, hmin⟩
        cases i with
        | zero => exact absurd hm hm0
        | succ i' =>
          have hm' : matchAt pat rest i' := (matchAt_cons_succ ..).mp hm
          have hmin' : ∀ j, j < i' → ¬ matchAt pat rest j := by
            intro j hj
            rw [← matchAt_cons_succ pat c rest j]
            exact hmin (j + 1) (by omega)
          rw [(ih i').mpr ⟨hm', hmin'⟩]
          rfl

theorem findSub_eq_none_iff (pat : List Char) : ∀ (l : List Char),
    findSub pat l = none ↔ ∀ j, ¬ matchAt pat l j := by
  intro l
  induction l with
  | nil =>
    unfold findSub
    by_cases hp : pat = []
    · simp [if_pos hp, matchAt_nil, hp]
    · simp [if_neg hp, matchAt_nil, hp]
  | cons c rest ih =>
    unfold findSub
    by_cases h0 : (c :: rest).take pat.length = pat
    · have hm0 : matchAt pat (c :: rest) 0 := by simpa [matchAt] using h0
      simp only [if_pos h0]
      constructor
      · intro h; exact absurd h (by simp)
      · intro h; exact absurd hm0 (h 0)
    · have hm0 : ¬ matchAt pat (c :: rest) 0 := by simpa [matchAt] using h0
      simp only [if_neg h0, Option.map_eq_none']
      rw [ih]
      constructor
      · intro h j
        cases j with
        | zero => exact hm0
        | succ j' => rw [matchAt_cons_succ]; exact h j'
      · intro h j
        rw [← matchAt_cons_succ pat c rest j]
        exact h (j + 1)

theorem rfindChar_eq_none_iff (c : Char) : ∀ (l : List Char) (hi : Nat),
    rfindChar c l hi = none ↔ ∀ j, j < hi → l[j]? ≠ some c := by
  intro l
  induction l with
  | nil =>
    intro hi
    simp [rfindChar]
  | cons x xs ih =>
    intro hi
    cases hi with
    | zero => simp [rfindChar]
    | succ n =>
      unfold rfindChar
      cases hr : rfindChar c xs n with
      | some i => simp only []
                  constructor
                  · intro h; exact absurd h (by simp)
                  · intro h
                    exfalso
                    have hnone : rfindChar c xs n = none :=
                      (ih n).mpr (fun j hj hget => h (j + 1) (by omega) (by simpa using hget))
                    exact Option.noConfusion (hr.symm.trans hnone)
      | none =>
        have hnone : ∀ j, j < n → xs[j]? ≠ some c := (ih n).mp hr
        simp only []
        by_cases hx : x = c
        · simp only [if_pos hx]
          constructor
          · intro h; exact absurd h (by simp)
          · intro h
            exact absurd (by simpa using congrArg some hx) (h 0 (by omega))
        · simp only [if_neg hx]
          constructor
          · intro _ j hj
            cases j with
            | zero => simpa using hx
            | succ j' => simpa using hnone j' (by omega)
          · intro _; trivial

theorem rfindChar_eq_some_iff (c : Char) : ∀ (l : List Char) (hi m : Nat),
    rfindChar c l hi = some m ↔
      m < hi ∧ l[m]? = some c ∧ ∀ j, m < j → j < hi → l[j]? ≠ some c := by
  intro l
  induction l with
  | nil => intro hi m; simp [rfindChar]
  | cons x xs ih =>
    intro hi m
    cases hi with
    | zero => simp [rfindChar]
    | succ n =>
      unfold rfindChar
      cases hr : rfindChar c xs n with
      | some i =>
        rcases (ih n i).mp hr with ⟨hlt, hget, hmax⟩
        simp only []
        constructor
        · rintro ⟨rfl⟩
          refine ⟨by omega, by simpa using hget, ?_⟩
          intro j hij hjn
          cases j with
          | zero => omega
          | succ j' =>
            simp only [List.getElem?_cons_succ]
            exact hmax j' (by omega) (by omega)
        · rintro ⟨hm, hgm, hmm⟩
          cases m with
          | zero =>
            exfalso
            exact hmm (i + 1) (by omega) (by omega) (by simpa using hget)
          | succ m' =>
            have : i = m' := by
              by_contra hne
              rcases Nat.lt_or_ge i m' with hlt' | hge
              · exact hmax m' hlt' (by omega) (by simpa using hgm)
              · exact hmm (i + 1) (by omega) (by omega) (by simpa using hget)
            simp [this]
      | none =>
        have hnone : ∀ j, j < n → xs[j]? ≠ some c := (rfindChar_eq_none_iff c xs n).mp hr
        simp only []
        by_cases hx : x = c
        · subst hx
          simp only [if_pos rfl]
          constructor
          · rintro ⟨rfl⟩
            refine ⟨by omega, by simp, ?_⟩
            intro j hj hjn
            cases j with
            | zero => omega
            | succ j' => simpa using hnone j' (by omega)
          · rintro ⟨hm, hgm, hmm⟩
            cases m with
            | zero => rfl
            | succ m' =>
              exfalso
              exact hnone m' (by omega) (by simpa using hgm)
        · simp only [if_neg hx]
          constructor
          · intro h; exact absurd h (by simp)
          · rintro ⟨hm, hgm, hmm⟩
            exfalso
            cases m with
            | zero => exact hx (by simpa using hgm)
            | succ m' => exact hnone m' (by omega) (by simpa using hgm)

/-! ## Claims C1 and C7: the file patcher -/

/-- Modelled from the spec: "The replacement region begins at the start of the
line containing the start marker", i.e. just after the last newline before the
marker, or at the very start of the file when the marker is on the first line.
Used to compare the spec's described region against the code's behaviour. -/
def lineStartSpec (content : List Char) (i : Nat) : Nat :=
  match rfindChar '\n' content i with
  | some m => m + 1
  | none => 0

/-- Claim C1 (amended): when both markers occur (first occurrences at `s` and
`e`), the patched file is `content[:start] ++ frag ++ content[e+len(END):]`,
where `start` is the position just after the last newline before `s`; when no
newline precedes `s` (the start marker sits on the first line), `start` is the
marker position `s` itself, so any text before the marker on the first line is
preserved rather than replaced.  Either way every byte before and after the
replaced region is preserved exactly. -/
theorem C1_patch_region (content frag : List Char) (s e : Nat)
    (hs : matchAt START_MARKER.toList content s)
    (hsMin : ∀ j, j < s → ¬ matchAt START_MARKER.toList content j)
    (he : matchAt END_MARKER.toList content e)
    (heMin : ∀ j, j < e → ¬ matchAt END_MARKER.toList content j) :
    ((∀ j, j < s → content[j]? ≠ some '\n') →
      update_index_html content frag
        = .written (content.take s ++ frag ++ content.drop (e + END_MARKER.toList.length)))
    ∧ (∀ m, m < s → content[m]? = some '\n' →
        (∀ j, j < s → m < j → content[j]? ≠ some '\n') →
        update_index_html content frag
          = .written (content.take (m + 1) ++ frag
              ++ content.drop (e + END_MARKER.toList.length))) := by
  have hfs : findSub START_MARKER.toList content = some s :=
    (findSub_eq_some_iff ..).mpr ⟨hs, hsMin⟩
  have hfe : findSub END_MARKER.toList content = some e :=
    (findSub_eq_some_iff ..).mpr ⟨he, heMin⟩
  constructor
  · intro hnl
    have hrf : rfindChar '\n' content s = none :=
      (rfindChar_eq_none_iff ..).mpr (fun j hj => hnl j hj)
    simp only [update_index_html, hfs, hfe, hrf]
  · intro m hm hget hmax
    have hrf : rfindChar '\n' content s = some m :=
      (rfindChar_eq_some_iff ..).mpr ⟨hm, hget, fun j h1 h2 => hmax j h2 h1⟩
    simp only [update_index_html, hfs, hfe, hrf]

def c1doc : List Char := ("  " ++ START_MARKER ++ "X" ++ END_MARKER ++ "Y").toList

/-- Claim C1, counterexample to the original statement: in a file whose start
marker sits on the first line preceded by two spaces of indentation, the code
keeps the indentation (replacement starts at the marker), while the claim says
the replaced region starts at the start of that line (index 0, indentation
included). -/
theorem C1_counterexample :
    update_index_html c1doc "NEW".toList = .written ("  NEW".toList ++ c1doc.drop 57)
    ∧ update_index_html c1doc "NEW".toList
        ≠ .written (c1doc.take
              (lineStartSpec c1doc ((findSub START_MARKER.toList c1doc).getD 0))
            ++ "NEW".toList ++ c1doc.drop 57) := by
  constructor
  · decide
  · decide

def c1docRT : List Char :=
  ("PREFIX\n  " ++ START_MARKER ++ "\nOLD\n" ++ END_MARKER ++ "\nSUFFIX").toList

/-- Claim C1, witness: the round-trip example; patching
`PREFIX\n  <marker>\nOLD\n<marker>\nSUFFIX` with `NEW` yields
`PREFIX\n` ++ `NEW` ++ `\nSUFFIX`. -/
theorem C1_patch_region_witness :
    update_index_html c1docRT "NEW".toList = .written "PREFIX\nNEW\nSUFFIX".toList := by
  have h := (C1_patch_region c1docRT "NEW".toList 9 42
      (by decide) (by decide) (by decide) (by decide)).2 6 (by decide) (by decide) (by decide)
  exact h.trans (by decide)

/-- Claim C7: when either marker is absent from the file content, the patcher
exits fatally with the diagnostic message and exit code 1; no new content is
written (the `.fatal` outcome carries no file content and the write only
happens on the `.written` path). -/
theorem C7_missing_marker_fatal (content frag : List Char)
    (h : (∀ j, ¬ matchAt START_MARKER.toList content j)
        ∨ (∀ j, ¬ matchAt END_MARKER.toList content j)) :
    update_index_html content frag
      = .fatal "Error: Could not find contribution markers in index.html" 1 := by
  rcases h with h | h
  · have hfs : findSub START_MARKER.toList content = none := (findSub_eq_none_iff ..).mpr h
    cases hfe : findSub END_MARKER.toList content <;> simp only [update_index_html, hfs, hfe]
  · have hfe : findSub END_MARKER.toList content = none := (findSub_eq_none_iff ..).mpr h
    cases hfs : findSub START_MARKER.toList content <;> simp only [update_index_html, hfs, hfe]

/-- Claim C7, witness: a file with no markers at all is rejected fatally. -/
theorem C7_missing_marker_fatal_witness :
    update_index_html "<html>no markers here</html>".toList "NEW".toList
      = .fatal "Error: Could not find contribution markers in index.html" 1 :=
  C7_missing_marker_fatal _ _
    (Or.inl ((findSub_eq_none_iff _ _).mp (by decide)))

/-! ## Claims C5 and C10: HTML escaping (`html_escape`) -/

/-- Python `s.replace(c, r)` for a single-character needle `c`. -/
def replaceChar : List Char → Char → List Char → List Char
  | [], _, _ => []
  | x :: xs, c, r => (if x = c then r else [x]) ++ replaceChar xs c r

/-- `html_escape(text)` from the script: the four chained `str.replace` calls,
ampersand first. -/
def html_escape (text : String) : String :=
  String.mk (replaceChar (replaceChar (replaceChar (replaceChar
    text.data '&' "&amp;".data) '<' "&lt;".data) '>' "&gt;".data) '\"' "&quot;".data)

/-- Per-character escaping table: what a single input character contributes to
the escaped output. -/
def escChar (c : Char) : List Char :=
  if c = '&' then "&amp;".data
  else if c = '<' then "&lt;".data
  else if c = '>' then "&gt;".data
  else if c = '\"' then "&quot;".data
  else [c]

/-- Single-pass reading of the escaping: each source character contributes
exactly its own expansion. -/
def escapeAll : List Char → List Char
  | [] => []
  | c :: cs => escChar c ++ escapeAll cs

theorem replaceChar_append (a b : List Char) (c : Char) (r : List Char) :
    replaceChar (a ++ b) c r = replaceChar a c r ++ replaceChar b c r := by
  induction a with
  | nil => rfl
  | cons x xs ih => simp [replaceChar, ih]

theorem escapeAll_append (a b : List Char) :
    escapeAll (a ++ b) = escapeAll a ++ escapeAll b := by
  induction a with
  | nil => rfl
  | cons x xs ih => simp [escapeAll, ih]

theorem escape_chain (l : List Char) :
    replaceChar (replaceChar (replaceChar (replaceChar l '&' "&amp;".data)
        '<' "&lt;".data) '>' "&gt;".data) '\"' "&quot;".data = escapeAll l := by
  induction l with
  | nil => rfl
  | cons x cs ih =>
    have hx : replaceChar (x :: cs) '&' "&amp;".data
        = (if x = '&' then "&amp;".data else [x]) ++ replaceChar cs '&' "&amp;".data := rfl
    rw [hx, replaceChar_append, replaceChar_append, replaceChar_append, ih]
    show _ ++ _ = escapeAll (x :: cs)
    rw [show escapeAll (x :: cs) = escChar x ++ escapeAll cs from rfl]
    congr 1
    by_cases h1 : x = '&'
    · subst h1; rfl
    · by_cases h2 : x = '<'
      · subst h2; rfl
      · by_cases h3 : x = '>'
        · subst h3; rfl
        · by_cases h4 : x = '\"'
          · subst h4; rfl
          · simp [replaceChar, escChar, h1, h2, h3, h4]

theorem html_escape_eq_escapeAll (t : String) :
    html_escape t = String.mk (escapeAll t.data) := by
  unfold html_escape
  rw [escape_chain]

/-- Claim C5: escaping substitutes exactly the characters `&`, `<`, `>`, `"`
by their entities, in a single conceptual pass (the ampersand substitution is
performed first, so the ampersands introduced by the other substitutions are
never re-escaped: every source character contributes exactly its own entity);
the example title escapes as stated. -/
theorem C5_escape_entities :
    (∀ t : String, html_escape t = String.mk (escapeAll t.data))
    ∧ escChar '&' = "&amp;".data
    ∧ escChar '<' = "&lt;".data
    ∧ escChar '>' = "&gt;".data
    ∧ escChar '\"' = "&quot;".data
    ∧ html_escape "A & B <C> \"D\"" = "A &amp; B &lt;C&gt; &quot;D&quot;" :=
  ⟨html_escape_eq_escapeAll, rfl, rfl, rfl, rfl, by decide⟩

/-- Claim C10: every character other than `&`, `<`, `>`, `"` passes through
the escaping unchanged, in place; in particular a single quote in a title is
inserted into the rendered HTML unescaped. -/
theorem C10_non_special_unchanged (c : Char) (h : c ∉ ['&', '<', '>', '\"']) :
    ∀ pre post : List Char,
      (html_escape (String.mk (pre ++ c :: post))).data
        = (html_escape (String.mk pre)).data ++ c :: (html_escape (String.mk post)).data := by
  intro pre post
  simp only [html_escape_eq_escapeAll]
  have hc : escChar c = [c] := by
    simp only [List.mem_cons, List.mem_singleton] at h
    push_neg at h
    obtain ⟨h1, h2, h3, h4⟩ := h
    simp [escChar, h1, h2, h3, h4]
  show escapeAll (pre ++ c :: post) = escapeAll pre ++ c :: escapeAll post
  rw [escapeAll_append]
  rw [show escapeAll (c :: post) = escChar c ++ escapeAll post from rfl, hc]
  rfl

/-- Claim C10, witness: the single quote in the title `it's` survives
escaping untouched. -/
theorem C10_non_special_unchanged_witness :
    (html_escape (String.mk ("it".data ++ '\'' :: "s".data))).data
      = (html_escape "it").data ++ '\'' :: (html_escape "s").data :=
  C10_non_special_unchanged '\'' (by decide) "it".data "s".data

/-! ## Data model: pull requests and categories -/

/-- A fetched pull-request record (the dict built in `fetch_merged_prs`). -/
structure PR where
  repo : String
  pr_number : Nat
  title : String
  url : String
deriving DecidableEq

/-- A category rule from the `CATEGORIES` table (the `OTHER_CATEGORY` dict has
no `match` key; its `matchFn` below is never consulted). -/
structure Category where
  name : String
  link_text : Option String
  link_url : Option String
  matchFn : String → Bool

/-- Python `needle in haystack` for strings. -/
def strContainsSub (needle haystack : String) : Bool :=
  (findSub needle.toList haystack.toList).isSome

def CATEGORIES : List Category :=
  [{ name := "Odin",
     link_text := some "dream-horizon-org.github.io/odin",
     link_url := some "https://dream-horizon-org.github.io/odin/",
     matchFn := fun repo => strContainsSub "odin" repo },
   { name := "Vert.x",
     link_text := some "vertx.io",
     link_url := some "https://vertx.io/",
     matchFn := fun repo => strContainsSub "vertx" repo }]

def OTHER_CATEGORY : Category :=
  { name := "Other", link_text := none, link_url := none, matchFn := fun _ => false }

/-! ## Categorizer (`categorize_prs`) -/

/-- Stable insertion step for a descending sort by a `Nat` key: the new element
goes before the first element whose key is not greater, so elements with equal
keys keep their original relative order.  This models Python's stable
`sorted(..., key=..., reverse=True)`. -/
def insertDesc {α : Type} (key : α → Nat) (x : α) : List α → List α
  | [] => [x]
  | y :: ys => if key x < key y then y :: insertDesc key x ys else x :: y :: ys

/-- Stable descending sort by a `Nat` key (model of Python
`sorted(..., key=..., reverse=True)`). -/
def sortDesc {α : Type} (key : α → Nat) : List α → List α
  | [] => []
  | x :: xs => insertDesc key x (sortDesc key xs)

/-- One step of `repos[pr["repo"]].append(pr)` on an insertion-ordered dict
modelled as an association list. -/
def addToGroup : List (String × List PR) → PR → List (String × List PR)
  | [], pr => [(pr.repo, [pr])]
  | (r, l) :: rest, pr =>
    if r = pr.repo then (r, l ++ [pr]) :: rest else (r, l) :: addToGroup rest pr

/-- The `repos` defaultdict of `categorize_prs`: PRs grouped by repository,
keys in order of first appearance, each bucket in input order. -/
def groupByRepo (prs : List PR) : List (String × List PR) :=
  prs.foldl addToGroup []

/-- The category-selection loop of `categorize_prs`: first matching rule wins,
fallback `OTHER_CATEGORY`. -/
def firstMatch (repo : String) : Category :=
  match CATEGORIES.find? (fun cat => cat.matchFn repo) with
  | some cat => cat
  | none => OTHER_CATEGORY

/-- One step of `categorized[category["name"]][repo_name] = ...` on the nested
insertion-ordered dict: append the (repo, prs) pair at the end of the bucket
for the category name, creating the bucket at the end if absent. -/
def addCat : List (String × List (String × List PR)) → String → String × List PR →
    List (String × List (String × List PR))
  | [], n, v => [(n, [v])]
  | (m, vs) :: rest, n, v =>
    if m = n then (m, vs ++ [v]) :: rest else (m, vs) :: addCat rest n v

/-- The `categorized` defaultdict of `categorize_prs`. -/
def buildCategorized (repos : List (String × List PR)) :
    List (String × List (String × List PR)) :=
  repos.foldl (fun acc rp =>
    addCat acc (firstMatch rp.1).name (rp.1, sortDesc (fun p => p.pr_number) rp.2)) []

/-- Association-list lookup (Python `name in dict` / `dict[name]`). -/
def lookupA {α : Type} : List (String × α) → String → Option α
  | [], _ => none
  | (k, v) :: rest, n => if k = n then some v else lookupA rest n

/-- `categorize_prs(prs)` from the script.  The returned `OrderedDict` is
modelled as a list of `(category name, category config, repos)` entries where
`repos` is the inner ordered dict as an association list. -/
def categorize_prs (prs : List PR) :
    List (String × Category × List (String × List PR)) :=
  let categorized := buildCategorized (groupByRepo prs)
  (CATEGORIES.filterMap (fun cat =>
    (lookupA categorized cat.name).map
      (fun rs => (cat.name, cat, sortDesc (fun rp => rp.2.length) rs))))
  ++ (match lookupA categorized OTHER_CATEGORY.name with
      | some rs => [(OTHER_CATEGORY.name, OTHER_CATEGORY,
          sortDesc (fun rp => rp.2.length) rs)]
      | none => [])

/-! ## Properties of the stable descending sort -/

theorem mem_insertDesc {α : Type} (key : α → Nat) (x : α) (l : List α) (a : α) :
    a ∈ insertDesc key x l ↔ a = x ∨ a ∈ l := by
  induction l with
  | nil => simp [insertDesc]
  | cons y ys ih =>
    unfold insertDesc
    by_cases h : key x < key y
    · simp only [if_pos h, List.mem_cons, ih]
      tauto
    · simp only [if_neg h, List.mem_cons]

theorem insertDesc_perm {α : Type} (key : α → Nat) (x : α) (l : List α) :
    (insertDesc key x l).Perm (x :: l) := by
  induction l with
  | nil => exact List.Perm.refl _
  | cons y ys ih =>
    unfold insertDesc
    by_cases h : key x < key y
    · simp only [if_pos h]
      exact (ih.cons y).trans (List.Perm.swap x y ys)
    · simp only [if_neg h]
      exact List.Perm.refl _

theorem sortDesc_perm {α : Type} (key : α → Nat) (l : List α) :
    (sortDesc key l).Perm l := by
  induction l with
  | nil => exact List.Perm.refl _
  | cons x xs ih => exact (insertDesc_perm key x (sortDesc key xs)).trans (ih.cons x)

theorem insertDesc_pairwise {α : Type} (key : α → Nat) (x : α) (l : List α)
    (h : l.Pairwise (fun a b => key b ≤ key a)) :
    (insertDesc key x l).Pairwise (fun a b => key b ≤ key a) := by
  induction l with
  | nil => simp [insertDesc]
  | cons y ys ih =>
    rcases List.pairwise_cons.mp h with ⟨hy, htail⟩
    unfold insertDesc
    by_cases hlt : key x < key y
    · simp only [if_pos hlt]
      refine List.pairwise_cons.mpr ⟨?_, ih htail⟩
      intro z hz
      rcases (mem_insertDesc key x ys z).mp hz with rfl | hz'
      · exact Nat.le_of_lt hlt
      · exact hy z hz'
    · simp only [if_neg hlt]
      refine List.pairwise_cons.mpr ⟨?_, h⟩
      intro z hz
      rcases List.mem_cons.mp hz with rfl | hz'
      · exact Nat.le_of_not_lt hlt
      · exact Nat.le_trans (hy z hz') (Nat.le_of_not_lt hlt)

theorem sortDesc_pairwise {α : Type} (key : α → Nat) (l : List α) :
    (sortDesc key l).Pairwise (fun a b => key b ≤ key a) := by
  induction l with
  | nil => simp [sortDesc]
  | cons x xs ih => exact insertDesc_pairwise key x _ ih

theorem filter_insertDesc {α : Type} (key : α → Nat) (k : Nat) (x : α) (l : List α) :
    (insertDesc key x l).filter (fun a => key a == k)
      = (x :: l).filter (fun a => key a == k) := by
  induction l with
  | nil => rfl
  | cons y ys ih =>
    unfold insertDesc
    by_cases hlt : key x < key y
    · simp only [if_pos hlt, List.filter_cons, ih]
      by_cases hxk : key x = k
      · have hyk : ¬ key y = k := by omega
        simp [hxk, hyk]
      · by_cases hyk : key y = k <;> simp [hxk, hyk]
    · simp only [if_neg hlt]

theorem sortDesc_filter_key {α : Type} (key : α → Nat) (k : Nat) (l : List α) :
    (sortDesc key l).filter (fun a => key a == k) = l.filter (fun a => key a == k) := by
  induction l with
  | nil => rfl
  | cons x xs ih =>
    show (insertDesc key x (sortDesc key xs)).filter _ = _
    rw [filter_insertDesc, List.filter_cons, List.filter_cons, ih]

/-! ## Properties of the insertion-ordered dictionaries -/

theorem lookupA_addCat (acc : List (String × List (String × List PR))) (n : String)
    (v : String × List PR) (n' : String) :
    lookupA (addCat acc n v) n'
      = if n' = n then some ((lookupA acc n).getD [] ++ [v]) else lookupA acc n' := by
  induction acc with
  | nil =>
    by_cases h : n' = n
    · simp [addCat, lookupA, h]
    · have h2 : ¬ n = n' := fun hh => h hh.symm
      simp [addCat, lookupA, h, h2]
  | cons kv rest ih =>
    obtain ⟨m, vs⟩ := kv
    unfold addCat
    by_cases hmn : m = n
    · subst hmn
      by_cases h : n' = m
      · subst h
        simp [lookupA]
      · have h2 : ¬ m = n' := fun hh => h hh.symm
        simp [lookupA, h, h2]
    · simp only [if_neg hmn]
      by_cases h : n' = n
      · subst h
        have hmn' : ¬ m = n' := hmn
        simp [lookupA, hmn', ih, fun hh : m = n' => hmn' hh]
      · by_cases hm : m = n'
        · subst hm
          simp [lookupA, h]
        · simp [lookupA, hm, ih, h]

/-- The per-category slice of the grouped repos, in insertion order, with each
bucket's PR list sorted descending by number: exactly what accumulates in
`categorized[n]`. -/
def catFilter (repos : List (String × List PR)) (n : String) : List (String × List PR) :=
  (repos.filter (fun rp => (firstMatch rp.1).name == n)).map
    (fun rp => (rp.1, sortDesc (fun p => p.pr_number) rp.2))

def combineB (o : Option (List (String × List PR))) (l : List (String × List PR)) :
    Option (List (String × List PR)) :=
  match o with
  | some xs => some (xs ++ l)
  | none => if l = [] then none else some l

theorem lookupA_foldl_addCat (repos : List (String × List PR)) :
    ∀ (acc : List (String × List (String × List PR))) (n : String),
    lookupA (repos.foldl (fun acc rp =>
        addCat acc (firstMatch rp.1).name (rp.1, sortDesc (fun p => p.pr_number) rp.2)) acc) n
      = combineB (lookupA acc n) (catFilter repos n) := by
  induction repos with
  | nil =>
    intro acc n
    simp only [List.foldl_nil, catFilter, List.filter_nil, List.map_nil, combineB]
    cases lookupA acc n <;> simp
  | cons rp rest ih =>
    intro acc n
    simp only [List.foldl_cons]
    rw [ih, lookupA_addCat]
    by_cases h : n = (firstMatch rp.1).name
    · subst h
      cases hacc : lookupA acc (firstMatch rp.1).name with
      | none => simp [catFilter, List.filter_cons, combineB, hacc]
      | some xs => simp [catFilter, List.filter_cons, combineB, hacc]
    · have hb : ((firstMatch rp.1).name == n) = false := by
        simp only [beq_eq_false_iff_ne, ne_eq]
        exact fun hh => h hh.symm
      simp only [if_neg h, catFilter, List.filter_cons, hb]
      rfl

theorem lookupA_buildCategorized (repos : List (String × List PR)) (n : String) :
    lookupA (buildCategorized repos) n
      = if catFilter repos n = [] then none else some (catFilter repos n) := by
  unfold buildCategorized
  rw [lookupA_foldl_addCat]
  rfl

theorem any_addToGroup (acc : List (String × List PR)) (pr : PR) (p : String → Bool) :
    (addToGroup acc pr).any (fun rp => p rp.1)
      = (acc.any (fun rp => p rp.1) || p pr.repo) := by
  induction acc with
  | nil => simp [addToGroup]
  | cons kv rest ih =>
    obtain ⟨r, l⟩ := kv
    unfold addToGroup
    by_cases h : r = pr.repo
    · subst h
      simp only [if_pos rfl, List.any_cons]
      cases hp : p pr.repo <;> simp [hp]
    · simp [List.any_cons, if_neg h, ih, Bool.or_assoc]

theorem any_foldl_addToGroup (p : String → Bool) : ∀ (prs : List PR) (acc : List (String × List PR)),
    (List.foldl addToGroup acc prs).any (fun rp => p rp.1)
      = (acc.any (fun rp => p rp.1) || prs.any (fun pr => p pr.repo)) := by
  intro prs
  induction prs with
  | nil => intro acc; simp
  | cons pr rest ih =>
    intro acc
    simp only [List.foldl_cons, ih, any_addToGroup, List.any_cons, Bool.or_assoc]

theorem any_groupByRepo (prs : List PR) (p : String → Bool) :
    (groupByRepo prs).any (fun rp => p rp.1) = prs.any (fun pr => p pr.repo) := by
  unfold groupByRepo
  rw [any_foldl_addToGroup]
  simp

theorem catFilter_groupByRepo_eq_nil_iff (prs : List PR) (n : String) :
    catFilter (groupByRepo prs) n = []
      ↔ prs.any (fun pr => (firstMatch pr.repo).name == n) = false := by
  unfold catFilter
  rw [List.map_eq_nil_iff, List.filter_eq_nil_iff]
  rw [← any_groupByRepo prs (fun r => (firstMatch r).name == n)]
  rw [List.any_eq_false]

/-- The final `result` of `categorize_prs`, written directly in terms of the
per-category slices of the grouped input. -/
theorem categorize_prs_eq (prs : List PR) :
    categorize_prs prs
      = (CATEGORIES.filterMap (fun cat =>
          if catFilter (groupByRepo prs) cat.name = [] then none
          else some (cat.name, cat,
            sortDesc (fun rp => rp.2.length) (catFilter (groupByRepo prs) cat.name))))
        ++ (if catFilter (groupByRepo prs) "Other" = [] then []
            else [("Other", OTHER_CATEGORY,
              sortDesc (fun rp => rp.2.length) (catFilter (groupByRepo prs) "Other"))]) := by
  have hsplit : categorize_prs prs
      = (CATEGORIES.filterMap (fun cat =>
          (lookupA (buildCategorized (groupByRepo prs)) cat.name).map
            (fun rs => (cat.name, cat, sortDesc (fun rp => rp.2.length) rs))))
        ++ (match lookupA (buildCategorized (groupByRepo prs)) OTHER_CATEGORY.name with
            | some rs => [(OTHER_CATEGORY.name, OTHER_CATEGORY,
                sortDesc (fun rp => rp.2.length) rs)]
            | none => []) := rfl
  rw [hsplit]
  congr 1
  · have hfg : (fun cat : Category =>
        (lookupA (buildCategorized (groupByRepo prs)) cat.name).map
          (fun rs => (cat.name, cat, sortDesc (fun rp => rp.2.length) rs)))
        = (fun cat : Category =>
          if catFilter (groupByRepo prs) cat.name = [] then none
          else some (cat.name, cat,
            sortDesc (fun rp => rp.2.length) (catFilter (groupByRepo prs) cat.name))) := by
      funext cat
      rw [lookupA_buildCategorized]
      by_cases h : catFilter (groupByRepo prs) cat.name = [] <;> simp [h]
    rw [hfg]
  · rw [show OTHER_CATEGORY.name = "Other" from rfl, lookupA_buildCategorized]
    by_cases h : catFilter (groupByRepo prs) "Other" = [] <;> simp [h]

/-- Destructure membership in the categorizer's result: every entry is a
non-empty per-category slice, count-sorted, whose config carries the entry's
name. -/
theorem mem_categorize (prs : List PR) (e : String × Category × List (String × List PR))
    (he : e ∈ categorize_prs prs) :
    catFilter (groupByRepo prs) e.1 ≠ []
    ∧ e.2.2 = sortDesc (fun rp => rp.2.length) (catFilter (groupByRepo prs) e.1)
    ∧ e.2.1.name = e.1 := by
  rw [categorize_prs_eq] at he
  rcases List.mem_append.mp he with h | h
  · rcases List.mem_filterMap.mp h with ⟨cat, hcat, hf⟩
    by_cases hc : catFilter (groupByRepo prs) cat.name = []
    · rw [if_pos hc] at hf
      exact absurd hf (by simp)
    · rw [if_neg hc] at hf
      have he' := Option.some.inj hf
      subst he'
      exact ⟨hc, rfl, rfl⟩
  · by_cases hc : catFilter (groupByRepo prs) "Other" = []
    · rw [if_pos hc] at h
      exact absurd h (List.not_mem_nil e)
    · rw [if_neg hc] at h
      have he' := List.mem_singleton.mp h
      subst he'
      exact ⟨hc, rfl, rfl⟩

/-- Claim C3: each repository lands in the category selected by the
first-matching rule (fallback "Other"); the result lists the categories in
rule-declaration order, then "Other", keeping exactly the non-empty ones;
every entry's config is the category of the entry's name and every repository
in an entry's bucket list belongs there by first-match. -/
theorem C3_first_match_categories (prs : List PR) :
    ((categorize_prs prs).map (fun e => e.1)
      = (CATEGORIES.map (fun cat => cat.name)).filter
          (fun n => prs.any (fun pr => (firstMatch pr.repo).name == n))
        ++ (if prs.any (fun pr => (firstMatch pr.repo).name == "Other") = true
            then ["Other"] else []))
    ∧ List.Forall (fun e => e.2.2 ≠ [] ∧ e.2.1.name = e.1
        ∧ List.Forall (fun rp => (firstMatch rp.1).name = e.1) e.2.2)
        (categorize_prs prs) := by
  constructor
  · rw [categorize_prs_eq, List.map_append]
    have e1 := catFilter_groupByRepo_eq_nil_iff prs "Odin"
    have e2 := catFilter_groupByRepo_eq_nil_iff prs "Vert.x"
    have e3 := catFilter_groupByRepo_eq_nil_iff prs "Other"
    congr 1
    · cases hb1 : prs.any (fun pr => (firstMatch pr.repo).name == "Odin") <;>
        cases hb2 : prs.any (fun pr => (firstMatch pr.repo).name == "Vert.x") <;>
          simp [CATEGORIES, e1, e2, hb1, hb2]
    · cases hb3 : prs.any (fun pr => (firstMatch pr.repo).name == "Other") <;>
        simp [e3, hb3]
  · rw [List.forall_iff_forall_mem]
    intro e he
    obtain ⟨hne, h22, hname⟩ := mem_categorize prs e he
    refine ⟨?_, hname, ?_⟩
    · rw [h22]
      intro hnil
      apply hne
      have hlen := (sortDesc_perm (fun rp => rp.2.length)
        (catFilter (groupByRepo prs) e.1)).length_eq
      rw [hnil] at hlen
      exact List.eq_nil_of_length_eq_zero hlen.symm
    · rw [List.forall_iff_forall_mem]
      intro rp hrp
      rw [h22] at hrp
      have hrp' : rp ∈ catFilter (groupByRepo prs) e.1 :=
        ((sortDesc_perm _ _).mem_iff).mp hrp
      unfold catFilter at hrp'
      rcases List.mem_map.mp hrp' with ⟨rp', hrp'', rfl⟩
      rcases List.mem_filter.mp hrp'' with ⟨-, hpred⟩
      exact beq_iff_eq.mp hpred

def c4prs : List PR :=
  [{ repo := "foo/bar", pr_number := 10, title := "a", url := "u1" },
   { repo := "foo/bar", pr_number := 3, title := "b", url := "u2" },
   { repo := "foo/bar", pr_number := 7, title := "c", url := "u3" }]

/-- Claim C4: within each category the repositories are in descending order of
PR count, ties broken stably by insertion order (restricting the output to any
fixed count gives exactly the insertion-ordered slice `catFilter` with that
count); within each repository the PRs are in descending number order; and the
PRs numbered [10, 3, 7] of a single repository come out as [10, 7, 3]. -/
theorem C4_ordering :
    (∀ prs : List PR, List.Forall (fun e =>
        List.Pairwise (fun a b => b.2.length ≤ a.2.length) e.2.2
        ∧ (∀ k : Nat, e.2.2.filter (fun rp => rp.2.length == k)
              = (catFilter (groupByRepo prs) e.1).filter (fun rp => rp.2.length == k))
        ∧ List.Forall (fun rp =>
            List.Pairwise (fun p q => q.pr_number ≤ p.pr_number) rp.2) e.2.2)
      (categorize_prs prs))
    ∧ (categorize_prs c4prs).map
        (fun e => (e.1, e.2.2.map (fun rp => (rp.1, rp.2.map (fun p => p.pr_number)))))
      = [("Other", [("foo/bar", [10, 7, 3])])] := by
  constructor
  · intro prs
    rw [List.forall_iff_forall_mem]
    intro e he
    obtain ⟨-, h22, -⟩ := mem_categorize prs e he
    refine ⟨?_, ?_, ?_⟩
    · rw [h22]
      exact sortDesc_pairwise _ _
    · intro k
      rw [h22]
      exact sortDesc_filter_key _ k _
    · rw [List.forall_iff_forall_mem]
      intro rp hrp
      rw [h22] at hrp
      have hrp' : rp ∈ catFilter (groupByRepo prs) e.1 :=
        ((sortDesc_perm _ _).mem_iff).mp hrp
      unfold catFilter at hrp'
      rcases List.mem_map.mp hrp' with ⟨rp', hrp'', rfl⟩
      exact sortDesc_pairwise _ _
  · decide

/-! ## Claim C9: categorization conserves the records -/

/-- All PR records stored in a repo association list, in order. -/
def flatB : List (String × List PR) → List PR
  | [] => []
  | rp :: rest => rp.2 ++ flatB rest

/-- All PR records stored in a categorized result, in order. -/
def flatR : List (String × Category × List (String × List PR)) → List PR
  | [] => []
  | e :: rest => flatB e.2.2 ++ flatR rest

theorem flatB_append (a b : List (String × List PR)) :
    flatB (a ++ b) = flatB a ++ flatB b := by
  induction a with
  | nil => rfl
  | cons x xs ih => simp [flatB, ih]

theorem flatB_perm {l₁ l₂ : List (String × List PR)} (h : l₁.Perm l₂) :
    (flatB l₁).Perm (flatB l₂) := by
  induction h with
  | nil => exact List.Perm.refl _
  | cons x _ ih => exact List.Perm.append_left x.2 ih
  | swap x y l =>
    show (flatB (y :: x :: l)).Perm (flatB (x :: y :: l))
    have h1 : ((y.2 ++ x.2) ++ flatB l).Perm ((x.2 ++ y.2) ++ flatB l) :=
      List.Perm.append_right _ List.perm_append_comm
    simpa [flatB, List.append_assoc] using h1
  | trans _ _ ih1 ih2 => exact ih1.trans ih2

theorem flatB_addToGroup (acc : List (String × List PR)) (pr : PR) :
    (flatB (addToGroup acc pr)).Perm (pr :: flatB acc) := by
  induction acc with
  | nil => simp [addToGroup, flatB]
  | cons kv rest ih =>
    obtain ⟨r, l⟩ := kv
    unfold addToGroup
    by_cases h : r = pr.repo
    · simp only [if_pos h, flatB]
      have h1 : ((l ++ [pr]) ++ flatB rest).Perm ((pr :: l) ++ flatB rest) :=
        List.Perm.append_right _ (List.perm_append_singleton pr l)
      simp only [List.append_assoc, List.singleton_append, List.cons_append] at h1 ⊢
      exact h1
    · simp only [if_neg h, flatB]
      exact (List.Perm.append_left l ih).trans List.perm_middle

theorem flatB_foldl_addToGroup : ∀ (prs : List PR) (acc : List (String × List PR)),
    (flatB (List.foldl addToGroup acc prs)).Perm (flatB acc ++ prs) := by
  intro prs
  induction prs with
  | nil => intro acc; simp
  | cons pr rest ih =>
    intro acc
    simp only [List.foldl_cons]
    refine (ih (addToGroup acc pr)).trans ?_
    refine (List.Perm.append_right rest (flatB_addToGroup acc pr)).trans ?_
    exact (List.perm_middle).symm

theorem flatB_groupByRepo (prs : List PR) : (flatB (groupByRepo prs)).Perm prs := by
  unfold groupByRepo
  simpa using flatB_foldl_addToGroup prs []

theorem flatB_catFilter (G : List (String × List PR)) (n : String) :
    (flatB (catFilter G n)).Perm
      (flatB (G.filter (fun rp => (firstMatch rp.1).name == n))) := by
  unfold catFilter
  induction G with
  | nil => exact List.Perm.refl _
  | cons rp rest ih =>
    rw [List.filter_cons]
    cases hp : ((firstMatch rp.1).name == n) with
    | false => simpa using ih
    | true =>
      simp only [if_pos rfl, List.map_cons]
      exact List.Perm.append (sortDesc_perm (fun p => p.pr_number) rp.2) ih

theorem firstMatch_name_cases (r : String) :
    (firstMatch r).name = "Odin" ∨ (firstMatch r).name = "Vert.x"
      ∨ (firstMatch r).name = "Other" := by
  unfold firstMatch
  cases h : CATEGORIES.find? (fun cat => cat.matchFn r) with
  | none => right; right; rfl
  | some cat =>
    have hmem : cat ∈ CATEGORIES := List.mem_of_find?_eq_some h
    simp only [CATEGORIES, List.mem_cons, List.mem_singleton, List.not_mem_nil,
      or_false] at hmem
    rcases hmem with rfl | rfl
    · left; rfl
    · right; left; rfl

theorem filter_name_partition (G : List (String × List PR)) :
    (G.filter (fun rp => (firstMatch rp.1).name == "Odin")
      ++ G.filter (fun rp => (firstMatch rp.1).name == "Vert.x")
      ++ G.filter (fun rp => (firstMatch rp.1).name == "Other")).Perm G := by
  induction G with
  | nil => simp
  | cons rp rest ih =>
    rcases firstMatch_name_cases rp.1 with h | h | h
    · have b1 : ((firstMatch rp.1).name == "Odin") = true := beq_iff_eq.mpr h
      have b2 : ((firstMatch rp.1).name == "Vert.x") = false := by rw [h]; decide
      have b3 : ((firstMatch rp.1).name == "Other") = false := by rw [h]; decide
      simp only [List.filter_cons, b1, b2, b3, if_pos, if_neg, Bool.false_eq_true,
        if_false, if_true, List.cons_append]
      exact ih.cons rp
    · have b1 : ((firstMatch rp.1).name == "Odin") = false := by rw [h]; decide
      have b2 : ((firstMatch rp.1).name == "Vert.x") = true := beq_iff_eq.mpr h
      have b3 : ((firstMatch rp.1).name == "Other") = false := by rw [h]; decide
      simp only [List.filter_cons, b1, b2, b3, Bool.false_eq_true, if_false, if_true]
      have hmid : (rest.filter (fun rp => (firstMatch rp.1).name == "Odin")
            ++ ((rp :: rest.filter (fun rp => (firstMatch rp.1).name == "Vert.x"))
              ++ rest.filter (fun rp => (firstMatch rp.1).name == "Other")))
          = rest.filter (fun rp => (firstMatch rp.1).name == "Odin")
            ++ rp :: (rest.filter (fun rp => (firstMatch rp.1).name == "Vert.x")
              ++ rest.filter (fun rp => (firstMatch rp.1).name == "Other")) := by
        simp
      rw [List.append_assoc, hmid]
      refine List.perm_middle.trans ?_
      refine List.Perm.cons rp ?_
      rw [← List.append_assoc]
      exact ih
    · have b1 : ((firstMatch rp.1).name == "Odin") = false := by rw [h]; decide
      have b2 : ((firstMatch rp.1).name == "Vert.x") = false := by rw [h]; decide
      have b3 : ((firstMatch rp.1).name == "Other") = true := beq_iff_eq.mpr h
      simp only [List.filter_cons, b1, b2, b3, Bool.false_eq_true, if_false, if_true]
      refine List.perm_middle.trans ?_
      exact ih.cons rp

theorem catFilter_eq_nil_iff_filter (G : List (String × List PR)) (n : String) :
    catFilter G n = [] ↔ G.filter (fun rp => (firstMatch rp.1).name == n) = [] := by
  unfold catFilter
  exact List.map_eq_nil_iff

theorem flatR_categorize_eq (prs : List PR) :
    flatR (categorize_prs prs)
      = flatB (sortDesc (fun rp => rp.2.length) (catFilter (groupByRepo prs) "Odin"))
        ++ flatB (sortDesc (fun rp => rp.2.length) (catFilter (groupByRepo prs) "Vert.x"))
        ++ flatB (sortDesc (fun rp => rp.2.length) (catFilter (groupByRepo prs) "Other")) := by
  rw [categorize_prs_eq]
  by_cases h1 : catFilter (groupByRepo prs) "Odin" = [] <;>
    by_cases h2 : catFilter (groupByRepo prs) "Vert.x" = [] <;>
      by_cases h3 : catFilter (groupByRepo prs) "Other" = [] <;>
        simp [CATEGORIES, h1, h2, h3, flatR, flatB, sortDesc, List.append_assoc]

theorem flatR_categorize_perm (prs : List PR) :
    (flatR (categorize_prs prs)).Perm prs := by
  rw [flatR_categorize_eq]
  have q1 : (flatB (sortDesc (fun rp => rp.2.length)
        (catFilter (groupByRepo prs) "Odin"))).Perm
      (flatB ((groupByRepo prs).filter (fun rp => (firstMatch rp.1).name == "Odin"))) :=
    (flatB_perm (sortDesc_perm _ _)).trans (flatB_catFilter _ _)
  have q2 : (flatB (sortDesc (fun rp => rp.2.length)
        (catFilter (groupByRepo prs) "Vert.x"))).Perm
      (flatB ((groupByRepo prs).filter (fun rp => (firstMatch rp.1).name == "Vert.x"))) :=
    (flatB_perm (sortDesc_perm _ _)).trans (flatB_catFilter _ _)
  have q3 : (flatB (sortDesc (fun rp => rp.2.length)
        (catFilter (groupByRepo prs) "Other"))).Perm
      (flatB ((groupByRepo prs).filter (fun rp => (firstMatch rp.1).name == "Other"))) :=
    (flatB_perm (sortDesc_perm _ _)).trans (flatB_catFilter _ _)
  refine ((q1.append q2).append q3).trans ?_
  rw [← flatB_append, ← flatB_append]
  exact (flatB_perm (filter_name_partition (groupByRepo prs))).trans
    (flatB_groupByRepo prs)

theorem flatB_length (l : List (String × List PR)) :
    (flatB l).length = (l.map (fun rp => rp.2.length)).sum := by
  induction l with
  | nil => rfl
  | cons rp rest ih => simp [flatB, ih]

theorem flatR_length (R : List (String × Category × List (String × List PR))) :
    (flatR R).length
      = (R.map (fun e => (e.2.2.map (fun rp => rp.2.length)).sum)).sum := by
  induction R with
  | nil => rfl
  | cons e rest ih => simp [flatR, ih, flatB_length]

/-- Claim C9: categorization conserves the input records: the records collected
over all repository buckets of all categories are a permutation of the input
(each record appears exactly once, none dropped or duplicated), so the sum of
all per-repository PR counts equals the length of the input list. -/
theorem C9_conservation (prs : List PR) :
    (flatR (categorize_prs prs)).Perm prs
    ∧ ((categorize_prs prs).map
        (fun e => (e.2.2.map (fun rp => rp.2.length)).sum)).sum = prs.length := by
  refine ⟨flatR_categorize_perm prs, ?_⟩
  rw [← flatR_length]
  exact (flatR_categorize_perm prs).length_eq

/-! ## Claim C2: API client pagination (`fetch_merged_prs`) -/

/-- A raw item of a search-response page (`html_url` and `title` are the only
fields the script reads). -/
structure RawItem where
  html_url : String
  title : String
deriving DecidableEq

/-- A search-response page: the `items` list and the reported `total_count`. -/
structure SearchResponse where
  items : List RawItem
  total_count : Nat

/-- Python `s.split(sep)` for a single-character separator. -/
def splitOnChar (sep : Char) : List Char → List (List Char)
  | [] => [[]]
  | c :: rest =>
    match splitOnChar sep rest with
    | [] => [[]]
    | g :: gs => if c = sep then [] :: g :: gs else (c :: g) :: gs

/-- Python `int(s)` for the plain digit strings appearing in PR URLs; `none`
models the uncaught `ValueError` on anything else (signs, whitespace and
underscores, which Python would also accept, never occur in these URLs). -/
def natOfDigits (l : List Char) : Option Nat :=
  if l ≠ [] ∧ l.all (fun c => c.isDigit) then
    some (l.foldl (fun a c => a * 10 + (c.toNat - 48)) 0)
  else none

/-- The per-item URL parsing of the fetch loop:
`owner, repo, pr_number = parts[3], parts[4], int(parts[6])` after splitting
`html_url` on "/"; `none` models the uncaught IndexError/ValueError on a
malformed URL. -/
def parsePR (item : RawItem) : Option PR :=
  let parts := splitOnChar '/' item.html_url.toList
  match parts.get? 3, parts.get? 4, parts.get? 6 with
  | some owner, some repo, some numStr =>
    (natOfDigits numStr).map (fun n =>
      { repo := String.mk owner ++ "/" ++ String.mk repo, pr_number := n,
        title := item.title, url := item.html_url })
  | _, _, _ => none

/-- The inner `for item in items` loop body: parse each item in order, skip
repositories in the exclusion set, collect the rest (`none` when a parse
crashes). -/
def processItems : List RawItem → Option (List PR)
  | [] => some []
  | it :: rest =>
    match parsePR it with
    | none => none
    | some pr =>
      (processItems rest).map (fun prs =>
        if EXCLUDED_REPOS.contains pr.repo then prs else pr :: prs)

/-- The `while True` pagination loop of `fetch_merged_prs`, the HTTP GET for
page `p` modelled by `api p`.  Returns the trace of requested pages together
with the collected records (`none` models a crash while parsing an item).
The fuel argument `k` only bounds the structural recursion: the loop never
advances the page counter past `page * 100 >= 1000`, so with `page + k = 10`
(as in `fetch_merged_prs`) the fuel-exhausted fallback is dead code. -/
def fetchLoop (api : Nat → SearchResponse) : Nat → Nat → List PR →
    List Nat × Option (List PR)
  | k, page, acc =>
    let data := api page
    if data.items.isEmpty then ([page], some acc)
    else
      match processItems data.items with
      | none => ([page], none)
      | some prs =>
        if data.total_count ≤ page * 100 ∨ 1000 ≤ page * 100 then
          ([page], some (acc ++ prs))
        else
          match k with
          | 0 => ([page], some (acc ++ prs))
          | k' + 1 =>
            let r := fetchLoop api k' (page + 1) (acc ++ prs)
            (page :: r.1, r.2)

/-- `fetch_merged_prs()` from the script: pages from 1, `per_page = 100`,
empty accumulator. -/
def fetch_merged_prs (api : Nat → SearchResponse) : List Nat × Option (List PR) :=
  fetchLoop api 9 1 []

/-- The simulated API of the claim: it reports `total_count = L.length` and
serves the items of `L` in pages of 100. -/
def simApi (L : List RawItem) (page : Nat) : SearchResponse :=
  { items := (L.drop ((page - 1) * 100)).take 100, total_count := L.length }

/-- The records the fetch should yield for an item list: parse in order and
drop the excluded repositories. -/
def specFetch (l : List RawItem) : List PR :=
  (l.filterMap parsePR).filter (fun pr => !(EXCLUDED_REPOS.contains pr.repo))

theorem processItems_eq_specFetch (l : List RawItem)
    (h : ∀ it ∈ l, (parsePR it).isSome = true) :
    processItems l = some (specFetch l) := by
  induction l with
  | nil => rfl
  | cons it rest ih =>
    have hit : (parsePR it).isSome = true := h it (List.mem_cons_self it rest)
    rcases Option.isSome_iff_exists.mp hit with ⟨pr, hpr⟩
    have hrest := ih (fun x hx => h x (List.mem_cons_of_mem it hx))
    simp only [processItems, hpr, hrest, Option.map_some']
    unfold specFetch
    simp only [List.filterMap_cons, hpr, List.filter_cons]
    cases hex : EXCLUDED_REPOS.contains pr.repo <;> simp [specFetch, hex]

theorem specFetch_append (a b : List RawItem) :
    specFetch (a ++ b) = specFetch a ++ specFetch b := by
  unfold specFetch
  rw [List.filterMap_append, List.filter_append]

theorem take_add_decomp {α : Type} : ∀ (m n : Nat) (l : List α),
    l.take (m + n) = l.take m ++ (l.drop m).take n := by
  intro m
  induction m with
  | zero => intro n l; simp
  | succ m' ih =>
    intro n l
    cases l with
    | nil => simp
    | cons x xs =>
      rw [show m' + 1 + n = (m' + n) + 1 from by omega]
      simp only [List.take_succ_cons, List.drop_succ_cons, ih n xs, List.cons_append]

theorem fetchLoop_simApi (L : List RawItem) (hL : ∀ it ∈ L, (parsePR it).isSome = true) :
    ∀ (k : Nat), ∀ (page : Nat), 1 ≤ page → page + k = 10 → ∀ (acc : List PR),
    fetchLoop (simApi L) k page acc
      = if L.length ≤ (page - 1) * 100 then ([page], some acc)
        else (List.range' page (Nat.min ((L.length + 99) / 100) 10 + 1 - page),
          some (acc ++ specFetch ((L.drop ((page - 1) * 100)).take (1000 - (page - 1) * 100)))) := by
  intro k
  induction k with
  | zero =>
    intro page h1 hp acc
    have hpage : page = 10 := by omega
    subst hpage
    by_cases hemp : L.length ≤ (10 - 1) * 100
    · have hdrop : L.drop ((10 - 1) * 100) = [] := List.drop_eq_nil_iff.mpr (by omega)
      rw [if_pos hemp]
      simp [fetchLoop, simApi, hdrop]
    · rw [if_neg hemp]
      have hne : (L.drop ((10 - 1) * 100)).take 100 ≠ [] := by
        simp only [ne_eq, List.take_eq_nil_iff, List.drop_eq_nil_iff]
        omega
      have hproc : processItems ((L.drop ((10 - 1) * 100)).take 100)
          = some (specFetch ((L.drop ((10 - 1) * 100)).take 100)) :=
        processItems_eq_specFetch _
          (fun it hit => hL it (List.mem_of_mem_drop (List.mem_of_mem_take hit)))
      have hdiv : 10 ≤ (L.length + 99) / 100 := by omega
      have hmin : Nat.min ((L.length + 99) / 100) 10 = 10 := Nat.min_eq_right hdiv
      simp only [fetchLoop, simApi, hproc]
      rw [if_neg (by simp [List.isEmpty_iff, hne]), if_pos (by omega : L.length ≤ 10 * 100 ∨ 1000 ≤ 10 * 100)]
      rw [hmin]
      norm_num
  | succ k' ih =>
    intro page h1 hp acc
    by_cases hemp : L.length ≤ (page - 1) * 100
    · have hdrop : L.drop ((page - 1) * 100) = [] := List.drop_eq_nil_iff.mpr hemp
      rw [if_pos hemp]
      rw [fetchLoop]
      simp [simApi, hdrop]
    · rw [if_neg hemp]
      have hne : (L.drop ((page - 1) * 100)).take 100 ≠ [] := by
        simp only [ne_eq, List.take_eq_nil_iff, List.drop_eq_nil_iff]
        omega
      have hproc : processItems ((L.drop ((page - 1) * 100)).take 100)
          = some (specFetch ((L.drop ((page - 1) * 100)).take 100)) :=
        processItems_eq_specFetch _
          (fun it hit => hL it (List.mem_of_mem_drop (List.mem_of_mem_take hit)))
      have hp9 : page ≤ 9 := by omega
      rw [fetchLoop]
      simp only [simApi, hproc]
      rw [if_neg (by simp [List.isEmpty_iff, hne])]
      by_cases hstop : L.length ≤ page * 100
      · rw [if_pos (Or.inl hstop)]
        have hceil : (L.length + 99) / 100 = page := by omega
        have hmin : Nat.min ((L.length + 99) / 100) 10 = page := by
          rw [hceil]
          exact Nat.min_eq_left (by omega)
        rw [hmin]
        have hcnt : page + 1 - page = 1 := by omega
        rw [hcnt, List.range'_one]
        have hlen : (L.drop ((page - 1) * 100)).length ≤ 100 := by
          simp only [List.length_drop]
          omega
        have hlen' : (L.drop ((page - 1) * 100)).length ≤ 1000 - (page - 1) * 100 := by
          simp only [List.length_drop]
          omega
        rw [List.take_of_length_le hlen, List.take_of_length_le hlen']
      · rw [if_neg (by omega : ¬ (L.length ≤ page * 100 ∨ 1000 ≤ page * 100))]
        have hrec := ih (page + 1) (by omega) (by omega)
          (acc ++ specFetch ((L.drop ((page - 1) * 100)).take 100))
        rw [hrec, if_neg (by simp only [Nat.add_sub_cancel]; omega :
          ¬ L.length ≤ (page + 1 - 1) * 100)]
        have hceil : page + 1 ≤ (L.length + 99) / 100 := by omega
        have hmin : page + 1 ≤ Nat.min ((L.length + 99) / 100) 10 :=
          Nat.le_min.mpr ⟨hceil, by omega⟩
        have hcnt : Nat.min ((L.length + 99) / 100) 10 + 1 - page
            = (Nat.min ((L.length + 99) / 100) 10 + 1 - (page + 1)) + 1 := by omega
        rw [hcnt, List.range'_succ]
        have hseg : (L.drop ((page - 1) * 100)).take (1000 - (page - 1) * 100)
            = (L.drop ((page - 1) * 100)).take 100
              ++ (L.drop (page * 100)).take (1000 - page * 100) := by
          have h100 : (1000 : Nat) - (page - 1) * 100 = 100 + (1000 - page * 100) := by
            omega
          rw [h100, take_add_decomp, List.drop_drop]
          have hd : (page - 1) * 100 + 100 = page * 100 := by omega
          rw [hd]
        rw [hseg, specFetch_append]
        simp only [Nat.add_sub_cancel, List.append_assoc]

/-- Claim C2, counterexample to the original statement: for a simulated API
reporting `total_count = 0`, the loop still issues one page request (it must
fetch a page to see that it is empty), while the claim prescribes exactly
`ceil(0/100) = 0` requests (capped at 10). -/
theorem C2_counterexample :
    (fetch_merged_prs (simApi [])).1.length = 1
    ∧ (fetch_merged_prs (simApi [])).1.length
        ≠ Nat.min ((List.length ([] : List RawItem) + 99) / 100) 10 := by
  constructor
  · rfl
  · decide

/-- Claim C2 (amended): for a simulated API reporting `total_count = T` and
serving items in pages of 100, the loop requests exactly the pages
`1, ..., max 1 (min (ceil(T/100)) 10)` in order — i.e. `ceil(T/100)` requests
capped at 10 pages for `T ≥ 1`, and a single request (which returns zero
items) for `T = 0` — and it returns all served items in request order, minus
those whose owner/repo is in the exclusion set (at most the first 1000 items
are ever served). -/
theorem C2_pagination (L : List RawItem)
    (hL : ∀ it ∈ L, (parsePR it).isSome = true) :
    (fetch_merged_prs (simApi L)).1
      = List.range' 1 (Nat.max 1 (Nat.min ((L.length + 99) / 100) 10))
    ∧ (fetch_merged_prs (simApi L)).2 = some (specFetch (L.take 1000)) := by
  have h := fetchLoop_simApi L hL 9 1 (by omega) (by omega) []
  unfold fetch_merged_prs
  by_cases hT : L.length = 0
  · have hnil : L = [] := List.eq_nil_of_length_eq_zero hT
    subst hnil
    rw [if_pos (by simp)] at h
    rw [h]
    constructor
    · rfl
    · rfl
  · rw [if_neg (by omega : ¬ L.length ≤ (1 - 1) * 100)] at h
    rw [h]
    have hone : 1 ≤ Nat.min ((L.length + 99) / 100) 10 :=
      Nat.le_min.mpr ⟨by omega, by omega⟩
    have hmax : Nat.max 1 (Nat.min ((L.length + 99) / 100) 10)
        = Nat.min ((L.length + 99) / 100) 10 := Nat.max_eq_right hone
    constructor
    · rw [hmax]
      norm_num
    · norm_num

def c2items : List RawItem :=
  [{ html_url := "https://github.com/dream11/odin/pull/5", title := "t1" },
   { html_url := "https://github.com/foo/bar/pull/12", title := "t2" }]

/-- Claim C2, witness: two well-formed items, one of them in the excluded
`dream11/odin` repository; one page is requested and only the non-excluded
record is returned. -/
theorem C2_pagination_witness :
    (fetch_merged_prs (simApi c2items)).1
      = List.range' 1 (Nat.max 1 (Nat.min ((c2items.length + 99) / 100) 10))
    ∧ (fetch_merged_prs (simApi c2items)).2 = some (specFetch (c2items.take 1000)) :=
  C2_pagination c2items (by decide)

/-! ## Claim C6: `github_request` retry behaviour -/

/-- An HTTP error response as the script consumes it: status code, optional
numeric `Retry-After` header value, response body. -/
structure HttpErr where
  code : Nat
  retryAfter : Option Nat
  body : String
deriving DecidableEq

/-- Outcome of `github_request`: success with the decoded payload; fatal
`sys.exit(1)` after a non-rate-limit HTTP error, printing the code and the
body; or fatal `sys.exit(1)` after exhausting the retry attempts.  Each
outcome carries the trace of sleep durations performed before it. -/
inductive GithubResult (α : Type) where
  | ok (data : α) (sleeps : List Nat)
  | fatalHttp (code : Nat) (body : String) (sleeps : List Nat)
  | fatalRetries (sleeps : List Nat)
deriving DecidableEq

/-- The `for attempt in range(3)` loop of `github_request`, the response to
attempt `i` modelled by `resp i`.  On HTTP 403/429 the script sleeps
`int(e.headers.get("Retry-After", "60"))` seconds and retries; the slept
durations are recorded in the trace. -/
def githubLoop {α : Type} (resp : Nat → Except HttpErr α) :
    Nat → Nat → List Nat → GithubResult α
  | 0, _, sleeps => .fatalRetries sleeps
  | n + 1, attempt, sleeps =>
    match resp attempt with
    | .ok d => .ok d sleeps
    | .error e =>
      if e.code = 403 ∨ e.code = 429 then
        githubLoop resp n (attempt + 1) (sleeps ++ [e.retryAfter.getD 60])
      else .fatalHttp e.code e.body sleeps

/-- `github_request(url, headers)` from the script, with the network modelled
by the per-attempt response function. -/
def github_request {α : Type} (resp : Nat → Except HttpErr α) : GithubResult α :=
  githubLoop resp 3 0 []

/-- Whether a response is a rate-limit error (HTTP 403 or 429). -/
def isRateLimited {α : Type} : Except HttpErr α → Bool
  | .error e => e.code == 403 || e.code == 429
  | .ok _ => false

/-- The wait the script performs for a rate-limited response: the `Retry-After`
header value, defaulting to 60 seconds when absent. -/
def waitOf {α : Type} : Except HttpErr α → Nat
  | .error e => e.retryAfter.getD 60
  | .ok _ => 0

theorem isRateLimited_iff {α : Type} (r : Except HttpErr α) :
    isRateLimited r = true ↔ ∃ e, r = .error e ∧ (e.code = 403 ∨ e.code = 429) := by
  cases r with
  | ok d => simp [isRateLimited]
  | error e => simp [isRateLimited]

/-- Claim C6: on an HTTP 403/429 response the function sleeps the
`Retry-After` duration (default 60 s) and retries the same request, up to 3
attempts total; three rate-limited attempts end in fatal termination (exit 1)
with the diagnostic, after the three waits; any other HTTP error status is
immediately fatal without a retry, reporting the status code and response
body. -/
theorem C6_rate_limit_retry {α : Type} (resp : Nat → Except HttpErr α) :
    (∀ e : HttpErr, resp 0 = .error e → ¬ (e.code = 403 ∨ e.code = 429) →
      github_request resp = .fatalHttp e.code e.body [])
    ∧ (∀ d : α, isRateLimited (resp 0) = true → resp 1 = .ok d →
      github_request resp = .ok d [waitOf (resp 0)])
    ∧ (∀ e : HttpErr, isRateLimited (resp 0) = true → resp 1 = .error e →
        ¬ (e.code = 403 ∨ e.code = 429) →
      github_request resp = .fatalHttp e.code e.body [waitOf (resp 0)])
    ∧ (∀ d : α, isRateLimited (resp 0) = true → isRateLimited (resp 1) = true →
        resp 2 = .ok d →
      github_request resp = .ok d [waitOf (resp 0), waitOf (resp 1)])
    ∧ (isRateLimited (resp 0) = true → isRateLimited (resp 1) = true →
        isRateLimited (resp 2) = true →
      github_request resp
        = .fatalRetries [waitOf (resp 0), waitOf (resp 1), waitOf (resp 2)]) := by
  refine ⟨?_, ?_, ?_, ?_, ?_⟩
  · intro e h0 hn
    simp [github_request, githubLoop, h0, hn]
  · intro d h0 h1
    rcases (isRateLimited_iff _).mp h0 with ⟨e0, he0, hc0⟩
    simp [github_request, githubLoop, he0, hc0, h1, waitOf]
  · intro e h0 h1 hn
    rcases (isRateLimited_iff _).mp h0 with ⟨e0, he0, hc0⟩
    simp [github_request, githubLoop, he0, hc0, h1, hn, waitOf]
  · intro d h0 h1 h2
    rcases (isRateLimited_iff _).mp h0 with ⟨e0, he0, hc0⟩
    rcases (isRateLimited_iff _).mp h1 with ⟨e1, he1, hc1⟩
    simp [github_request, githubLoop, he0, hc0, he1, hc1, h2, waitOf]
  · intro h0 h1 h2
    rcases (isRateLimited_iff _).mp h0 with ⟨e0, he0, hc0⟩
    rcases (isRateLimited_iff _).mp h1 with ⟨e1, he1, hc1⟩
    rcases (isRateLimited_iff _).mp h2 with ⟨e2, he2, hc2⟩
    simp [github_request, githubLoop, he0, hc0, he1, hc1, he2, hc2, waitOf]

def c6respRetry : Nat → Except HttpErr Nat := fun i =>
  if i = 0 then .error { code := 429, retryAfter := some 2, body := "" } else .ok 7

def c6respFatal : Nat → Except HttpErr Nat := fun _ =>
  .error { code := 500, retryAfter := none, body := "Server Error" }

def c6respExhaust : Nat → Except HttpErr Nat := fun _ =>
  .error { code := 403, retryAfter := none, body := "rate limited" }

/-- Claim C6, witness: a 429 with `Retry-After: 2` causes one 2-second wait
and success on attempt 2; a 500 is fatal at once with its code and body and
no wait; three straight 403s exhaust the retries after three default
60-second waits. -/
theorem C6_rate_limit_retry_witness :
    github_request c6respRetry = .ok 7 [2]
    ∧ github_request c6respFatal = .fatalHttp 500 "Server Error" []
    ∧ github_request c6respExhaust = .fatalRetries [60, 60, 60] := by
  refine ⟨?_, ?_, ?_⟩
  · have h := (C6_rate_limit_retry c6respRetry).2.1 7 (by decide) rfl
    exact h.trans (by decide)
  · have h := (C6_rate_limit_retry c6respFatal).1
      { code := 500, retryAfter := none, body := "Server Error" } rfl (by decide)
    exact h
  · have h := (C6_rate_limit_retry c6respExhaust).2.2.2.2 (by decide) (by decide) (by decide)
    exact h.trans (by decide)

/-! ## HTML renderer (`generate_contributions_html`) and claim C8 -/

/-- One PR anchor accumulated into `pr_links`. -/
def prLink (pr : PR) : String :=
  "<a class=\"pr-item\" href=\"" ++ pr.url ++ "\" target=\"_blank\" rel=\"noopener\">" ++
  "<span class=\"pr-badge\">merged</span>" ++ html_escape pr.title ++ "</a>"

/-- The two lines appended per repository: the `details` element and a blank
line. -/
def repoLines (rp : String × List PR) : List String :=
  let count_label :=
    if rp.2.length = 1 then toString rp.2.length ++ " PR"
    else toString rp.2.length ++ " PRs"
  ["            <details class=\"repo-item\"><summary>" ++ CHEVRON_SVG ++
    "<span class=\"repo-name\">" ++ rp.1 ++ "</span>" ++
    "<span class=\"repo-count\">" ++ count_label ++ "</span></summary>" ++
    "<div class=\"pr-list\">" ++ String.join (rp.2.map prLink) ++ "</div></details>",
   ""]

/-- The lines appended per category section (the label carries the external
link when the config defines a non-empty `link_url`, matching Python's
truthiness test on `config.get("link_url")`). -/
def catLines (e : String × Category × List (String × List PR)) : List String :=
  let config := e.2.1
  let label :=
    match config.link_url with
    | some u =>
      if u.isEmpty then "          <div class=\"org-label\">" ++ config.name ++ "</div>"
      else "          <div class=\"org-label\">" ++ config.name ++ " <a href=\"" ++ u ++
        "\" target=\"_blank\" rel=\"noopener\">" ++ config.link_text.getD "" ++ "</a></div>"
    | none => "          <div class=\"org-label\">" ++ config.name ++ "</div>"
  ["        <!-- " ++ e.1 ++ " -->",
   "        <div class=\"org-section\">",
   label,
   "          <div class=\"repo-list\">",
   ""]
  ++ e.2.2.flatMap repoLines
  ++ ["          </div>", "        </div>", ""]

/-- Python `"\n".join(lines)`. -/
def joinLines : List String → String
  | [] => ""
  | [l] => l
  | l :: rest => l ++ "\n" ++ joinLines rest

/-- `generate_contributions_html(categorized)` from the script. -/
def generate_contributions_html
    (categorized : List (String × Category × List (String × List PR))) : String :=
  joinLines
    (["      <!-- BEGIN CONTRIBUTIONS -->",
      "      <div class=\"contributions\">",
      "        <h2>Open Source Contributions</h2>",
      ""]
    ++ categorized.flatMap catLines
    ++ ["      </div>", "      <!-- END CONTRIBUTIONS -->"])

theorem getElem?_drop_eq (l : List Char) (i j : Nat) : (l.drop i)[j]? = l[i + j]? :=
  List.getElem?_drop l i j

theorem matchAt_getElem (p l : List Char) (i t : Nat) (h : matchAt p l i)
    (ht : t < p.length) : l[i + t]? = p[t]? := by
  unfold matchAt at h
  conv_rhs => rw [← h]
  rw [List.getElem?_take_of_lt ht, List.getElem?_drop]

theorem matchAt_le_length (p l : List Char) (i : Nat) (hp : p ≠ [])
    (h : matchAt p l i) : i + p.length ≤ l.length := by
  unfold matchAt at h
  have hlen := congrArg List.length h
  simp only [List.length_take, List.length_drop] at hlen
  have hpos : 0 < p.length := List.length_pos.mpr hp
  have hmin := Nat.min_le_right p.length (l.length - i)
  rw [hlen] at hmin
  omega

theorem matchAt_append_inner (A rest p : List Char) (j : Nat) :
    matchAt p (A ++ rest) (A.length + j) ↔ matchAt p rest j := by
  unfold matchAt
  rw [List.drop_append]

theorem matchAt_append_left_of (A B p : List Char) (j : Nat)
    (h : matchAt p (A ++ B) j) (hle : j + p.length ≤ A.length) : matchAt p A j := by
  unfold matchAt at h ⊢
  rw [List.drop_append_of_le_length (by omega)] at h
  rw [List.take_append_of_le_length (by simp only [List.length_drop]; omega)] at h
  exact h

theorem matchAt_middle (A F B p : List Char) (i : Nat) (h : matchAt p F i)
    (hlen : i + p.length ≤ F.length) : matchAt p (A ++ (F ++ B)) (A.length + i) := by
  rw [matchAt_append_inner]
  unfold matchAt at h ⊢
  rw [List.drop_append_of_le_length (by omega)]
  rw [List.take_append_of_le_length (by simp only [List.length_drop]; omega)]
  exact h

theorem matchAt_of_matchAt_take (l p : List Char) (k j : Nat)
    (h : matchAt p (l.take k) j) (hle : j + p.length ≤ k) : matchAt p l j := by
  unfold matchAt at h ⊢
  rw [List.drop_take, List.take_take, Nat.min_eq_left (by omega)] at h
  exact h

/-- Computation of a successful patch when a newline precedes the first start
marker: the written content replaces everything from just after the last
newline before the marker through the end of the first end-marker occurrence. -/
theorem patch_written_of_newline (content frag : List Char) (s e m : Nat)
    (hs : matchAt START_MARKER.toList content s)
    (hsMin : ∀ j, j < s → ¬ matchAt START_MARKER.toList content j)
    (he : matchAt END_MARKER.toList content e)
    (heMin : ∀ j, j < e → ¬ matchAt END_MARKER.toList content j)
    (hm : m < s) (hget : content[m]? = some '\n')
    (hmax : ∀ j, j < s → m < j → content[j]? ≠ some '\n') :
    update_index_html content frag
      = .written (content.take (m + 1) ++ frag
          ++ content.drop (e + END_MARKER.toList.length)) := by
  have hfs : findSub START_MARKER.toList content = some s :=
    (findSub_eq_some_iff ..).mpr ⟨hs, hsMin⟩
  have hfe : findSub END_MARKER.toList content = some e :=
    (findSub_eq_some_iff ..).mpr ⟨he, heMin⟩
  have hrf : rfindChar '\n' content s = some m :=
    (rfindChar_eq_some_iff ..).mpr ⟨hm, hget, fun j h1 h2 => hmax j h2 h1⟩
  simp only [update_index_html, hfs, hfe, hrf]

/-- Claim C8 (amended): patching is idempotent for well-placed inputs.  When
the document's first start marker is preceded by a newline (last one at `m`),
the document's first end marker is not before the start marker, and the
fragment `F` carries its first start marker at offset 6 on its first line (no
earlier newline) and its first end marker exactly at its tail — as holds for
every fragment rendered by `generate_contributions_html` whose repository
names, titles and URLs do not themselves contain marker text — then patching
the patched document again with the same fragment changes nothing. -/
theorem C8_idempotent (doc F : List Char) (s e m : Nat)
    (hs : matchAt START_MARKER.toList doc s)
    (hsMin : ∀ j, j < s → ¬ matchAt START_MARKER.toList doc j)
    (he : matchAt END_MARKER.toList doc e)
    (heMin : ∀ j, j < e → ¬ matchAt END_MARKER.toList doc j)
    (hse : s ≤ e)
    (hm : m < s) (hmNl : doc[m]? = some '\n')
    (hmMax : ∀ j, j < s → m < j → doc[j]? ≠ some '\n')
    (hF6 : matchAt START_MARKER.toList F 6)
    (hFMin : ∀ j, j < 6 → ¬ matchAt START_MARKER.toList F j)
    (hFnl : ∀ j, j < 6 → F[j]? ≠ some '\n')
    (hFe : matchAt END_MARKER.toList F (F.length - END_MARKER.toList.length))
    (hFeMin : ∀ j, j < F.length - END_MARKER.toList.length →
        ¬ matchAt END_MARKER.toList F j) :
    update_index_html doc F
      = .written (doc.take (m + 1) ++ F ++ doc.drop (e + END_MARKER.toList.length))
    ∧ update_index_html
        (doc.take (m + 1) ++ F ++ doc.drop (e + END_MARKER.toList.length)) F
      = .written (doc.take (m + 1) ++ F ++ doc.drop (e + END_MARKER.toList.length)) := by
  have hSMne : START_MARKER.toList ≠ [] := by decide
  have hSMlen : START_MARKER.toList.length = 28 := by decide
  have hEMlen : END_MARKER.toList.length = 26 := by decide
  have hF34 : 6 + 28 ≤ F.length := by
    have := matchAt_le_length _ _ _ hSMne hF6
    omega
  have hmdoc : m < doc.length := by
    by_contra hcon
    rw [List.getElem?_eq_none (by omega)] at hmNl
    exact Option.noConfusion hmNl
  have hPlen : (doc.take (m + 1)).length = m + 1 := by
    rw [List.length_take]
    exact Nat.min_eq_left (by omega)
  have part1 := patch_written_of_newline doc F s e m hs hsMin he heMin hm hmNl hmMax
  refine ⟨part1, ?_⟩
  rw [List.append_assoc]
  have hDchar : ∀ t, t < F.length →
      (doc.take (m + 1) ++ (F ++ doc.drop (e + END_MARKER.toList.length)))[m + 1 + t]?
        = F[t]? := by
    intro t ht
    rw [List.getElem?_append_right (by rw [hPlen]; omega), hPlen]
    rw [show m + 1 + t - (m + 1) = t from by omega]
    exact List.getElem?_append_left ht
  have hDP : ∀ t, t ≤ m →
      (doc.take (m + 1) ++ (F ++ doc.drop (e + END_MARKER.toList.length)))[t]?
        = doc[t]? := by
    intro t ht
    rw [List.getElem?_append_left (by rw [hPlen]; omega)]
    exact List.getElem?_take_of_lt (by omega)
  have hDm : (doc.take (m + 1) ++ (F ++ doc.drop (e + END_MARKER.toList.length)))[m]?
      = some '\n' := by
    rw [hDP m (Nat.le_refl m)]
    exact hmNl
  have hnoNlSM : ∀ t, t < START_MARKER.toList.length →
      START_MARKER.toList[t]? ≠ some '\n' := by decide
  have hnoNlEM : ∀ t, t < END_MARKER.toList.length →
      END_MARKER.toList[t]? ≠ some '\n' := by decide
  have hs' : matchAt START_MARKER.toList
      (doc.take (m + 1) ++ (F ++ doc.drop (e + END_MARKER.toList.length)))
      (m + 1 + 6) := by
    have := matchAt_middle (doc.take (m + 1)) F (doc.drop (e + END_MARKER.toList.length))
      START_MARKER.toList 6 hF6 (by omega)
    rwa [hPlen] at this
  have hsMin' : ∀ j, j < m + 1 + 6 →
      ¬ matchAt START_MARKER.toList
        (doc.take (m + 1) ++ (F ++ doc.drop (e + END_MARKER.toList.length))) j := by
    intro j hj hmat
    by_cases hjm : j ≤ m
    · by_cases hfits : j + START_MARKER.toList.length ≤ m + 1
      · have h1 : matchAt START_MARKER.toList (doc.take (m + 1)) j :=
          matchAt_append_left_of _ _ _ _ hmat (by rw [hPlen]; omega)
        have h2 : matchAt START_MARKER.toList doc j :=
          matchAt_of_matchAt_take _ _ _ _ h1 hfits
        exact hsMin j (by omega) h2
      · have hchar := matchAt_getElem _ _ _ (m - j) hmat (by omega)
        rw [show j + (m - j) = m from by omega, hDm] at hchar
        exact hnoNlSM (m - j) (by omega) hchar.symm
    · have hmat2 : matchAt START_MARKER.toList
          (F ++ doc.drop (e + END_MARKER.toList.length)) (j - (m + 1)) := by
        refine (matchAt_append_inner (doc.take (m + 1)) _ _ _).mp ?_
        rw [hPlen]
        rwa [show m + 1 + (j - (m + 1)) = j from by omega]
      have hin : matchAt START_MARKER.toList F (j - (m + 1)) :=
        matchAt_append_left_of _ _ _ _ hmat2 (by omega)
      exact hFMin (j - (m + 1)) (by omega) hin
  have he' : matchAt END_MARKER.toList
      (doc.take (m + 1) ++ (F ++ doc.drop (e + END_MARKER.toList.length)))
      (m + 1 + (F.length - END_MARKER.toList.length)) := by
    have := matchAt_middle (doc.take (m + 1)) F (doc.drop (e + END_MARKER.toList.length))
      END_MARKER.toList (F.length - END_MARKER.toList.length) hFe (by omega)
    rwa [hPlen] at this
  have heMin' : ∀ j, j < m + 1 + (F.length - END_MARKER.toList.length) →
      ¬ matchAt END_MARKER.toList
        (doc.take (m + 1) ++ (F ++ doc.drop (e + END_MARKER.toList.length))) j := by
    intro j hj hmat
    by_cases hjm : j ≤ m
    · by_cases hfits : j + END_MARKER.toList.length ≤ m + 1
      · have h1 : matchAt END_MARKER.toList (doc.take (m + 1)) j :=
          matchAt_append_left_of _ _ _ _ hmat (by rw [hPlen]; omega)
        have h2 : matchAt END_MARKER.toList doc j :=
          matchAt_of_matchAt_take _ _ _ _ h1 hfits
        exact heMin j (by omega) h2
      · have hchar := matchAt_getElem _ _ _ (m - j) hmat (by omega)
        rw [show j + (m - j) = m from by omega, hDm] at hchar
        exact hnoNlEM (m - j) (by omega) hchar.symm
    · have hmat2 : matchAt END_MARKER.toList
          (F ++ doc.drop (e + END_MARKER.toList.length)) (j - (m + 1)) := by
        refine (matchAt_append_inner (doc.take (m + 1)) _ _ _).mp ?_
        rw [hPlen]
        rwa [show m + 1 + (j - (m + 1)) = j from by omega]
      have hin : matchAt END_MARKER.toList F (j - (m + 1)) :=
        matchAt_append_left_of _ _ _ _ hmat2 (by omega)
      exact hFeMin (j - (m + 1)) (by omega) hin
  have hDmax : ∀ j, j < m + 1 + 6 → m < j →
      (doc.take (m + 1) ++ (F ++ doc.drop (e + END_MARKER.toList.length)))[j]?
        ≠ some '\n' := by
    intro j hj hmj
    have hconv := hDchar (j - (m + 1)) (by omega)
    rw [show m + 1 + (j - (m + 1)) = j from by omega] at hconv
    rw [hconv]
    exact hFnl (j - (m + 1)) (by omega)
  have happ := patch_written_of_newline
    (doc.take (m + 1) ++ (F ++ doc.drop (e + END_MARKER.toList.length))) F
    (m + 1 + 6) (m + 1 + (F.length - END_MARKER.toList.length)) m
    hs' hsMin' he' heMin' (by omega) hDm hDmax
  have h1 : (doc.take (m + 1)
        ++ (F ++ doc.drop (e + END_MARKER.toList.length))).take (m + 1)
      = doc.take (m + 1) := List.take_left' hPlen
  have h2 : (doc.take (m + 1) ++ (F ++ doc.drop (e + END_MARKER.toList.length))).drop
        (m + 1 + (F.length - END_MARKER.toList.length) + END_MARKER.toList.length)
      = doc.drop (e + END_MARKER.toList.length) := by
    have hidx : m + 1 + (F.length - END_MARKER.toList.length) + END_MARKER.toList.length
        = (doc.take (m + 1)).length + F.length := by
      rw [hPlen]
      omega
    rw [hidx, List.drop_append]
    exact List.drop_left F _
  rw [happ, h1, h2]
  rw [List.append_assoc]

/-- Computation of a successful patch when no newline precedes the first
start marker: the region then starts at the marker itself. -/
theorem patch_written_of_no_newline (content frag : List Char) (s e : Nat)
    (hs : matchAt START_MARKER.toList content s)
    (hsMin : ∀ j, j < s → ¬ matchAt START_MARKER.toList content j)
    (he : matchAt END_MARKER.toList content e)
    (heMin : ∀ j, j < e → ¬ matchAt END_MARKER.toList content j)
    (hnl : ∀ j, j < s → content[j]? ≠ some '\n') :
    update_index_html content frag
      = .written (content.take s ++ frag
          ++ content.drop (e + END_MARKER.toList.length)) := by
  have hfs : findSub START_MARKER.toList content = some s :=
    (findSub_eq_some_iff ..).mpr ⟨hs, hsMin⟩
  have hfe : findSub END_MARKER.toList content = some e :=
    (findSub_eq_some_iff ..).mpr ⟨he, heMin⟩
  have hrf : rfindChar '\n' content s = none := (rfindChar_eq_none_iff ..).mpr hnl
  simp only [update_index_html, hfs, hfe, hrf]

def c8prs : List PR :=
  [{ repo := "foo/bar", pr_number := 1, title := "Fix thing",
     url := "https://github.com/foo/bar/pull/1" }]

def c8frag : List Char := (generate_contributions_html (categorize_prs c8prs)).toList

def c8doc : List Char := (START_MARKER ++ END_MARKER).toList

set_option maxRecDepth 20000 in
/-- Claim C8, counterexample to the original statement: for the document
consisting of the two markers with no newline before the start marker, and
the fragment actually rendered for a one-PR categorization, the first patch
yields the fragment itself, but patching that result again inserts the
fragment after the six spaces of its own first line (the `rfind` of a
preceding newline returns -1, so the region starts at the marker, not at the
line start), so patching twice differs from patching once. -/
theorem C8_counterexample :
    update_index_html c8doc c8frag = .written c8frag
    ∧ update_index_html c8frag c8frag
        = .written (c8frag.take 6 ++ c8frag
            ++ c8frag.drop (751 + END_MARKER.toList.length))
    ∧ (c8frag.take 6 ++ c8frag ++ c8frag.drop (751 + END_MARKER.toList.length))
        ≠ c8frag := by
  have hS0 := (findSub_eq_some_iff START_MARKER.toList c8doc 0).mp (by decide)
  have hE0 := (findSub_eq_some_iff END_MARKER.toList c8doc 28).mp (by decide)
  have hFS := (findSub_eq_some_iff START_MARKER.toList c8frag 6).mp (by decide)
  have hFE := (findSub_eq_some_iff END_MARKER.toList c8frag 751).mp (by decide)
  have hflen : c8frag.length = 777 := by decide
  refine ⟨?_, ?_, ?_⟩
  · have h := patch_written_of_no_newline c8doc c8frag 0 28 hS0.1 hS0.2 hE0.1 hE0.2
      (fun j hj => absurd hj (Nat.not_lt_zero j))
    rw [h]
    have hdrop : c8doc.drop (28 + END_MARKER.toList.length) = [] := by decide
    rw [hdrop]
    simp
  · exact patch_written_of_no_newline c8frag c8frag 6 751 hFS.1 hFS.2 hFE.1 hFE.2
      (by decide)
  · intro h
    have hlen := congrArg List.length h
    simp only [List.length_append, List.length_take, List.length_drop, hflen,
      show END_MARKER.toList.length = 26 from rfl] at hlen
    omega

def c8doc2 : List Char := ("A\n  " ++ START_MARKER ++ "X" ++ END_MARKER ++ "\nB").toList

set_option maxRecDepth 20000 in
/-- Claim C8, witness: for a document whose indented start marker is preceded
by a newline (last one at index 1) and whose end marker follows it, patching
with the rendered one-PR fragment and then patching the result again with the
same fragment give the same document. -/
theorem C8_idempotent_witness :
    update_index_html c8doc2 c8frag
      = .written (c8doc2.take 2 ++ c8frag ++ c8doc2.drop (33 + END_MARKER.toList.length))
    ∧ update_index_html
        (c8doc2.take 2 ++ c8frag ++ c8doc2.drop (33 + END_MARKER.toList.length)) c8frag
      = .written (c8doc2.take 2 ++ c8frag
          ++ c8doc2.drop (33 + END_MARKER.toList.length)) := by
  have hS := (findSub_eq_some_iff START_MARKER.toList c8doc2 4).mp (by decide)
  have hE := (findSub_eq_some_iff END_MARKER.toList c8doc2 33).mp (by decide)
  have hN := (rfindChar_eq_some_iff '\n' c8doc2 4 1).mp (by decide)
  have hFS := (findSub_eq_some_iff START_MARKER.toList c8frag 6).mp (by decide)
  have hFE := (findSub_eq_some_iff END_MARKER.toList c8frag 751).mp (by decide)
  have hflen : c8frag.length = 777 := by decide
  have h751 : c8frag.length - END_MARKER.toList.length = 751 := by rw [hflen]; rfl
  refine C8_idempotent c8doc2 c8frag 4 33 1 hS.1 hS.2 hE.1 hE.2 (by omega) (by omega)
    hN.2.1 (fun j hj hmj => hN.2.2 j hmj hj) hFS.1 hFS.2 (by decide) ?_ ?_
  · rw [h751]
    exact hFE.1
  · rw [h751]
    exact hFE.2
